import Mathlib

/-!
# Verification of `@randajan/group-map`

Shallow embedding of the three grouped-collection classes of the repository:

* `MapMap`   (src/src/MapMap.js)   — `Map<groupId, Map<key, value>>`
* `MapSet`   (src/src/MapSet.js, the second class declaration, lines 110-228)
                                   — `Map<groupId, Set<value>>`
* `MapSetA`  (src/src/MapSet.js, the first class declaration, lines 20-97)
                                   — the older grouped-`Set` implementation
* `MapArray` (src/src/MapArray.js) — `Map<groupId, V[]>`

A native JavaScript `Map` is modelled as an insertion-ordered association
list `List (K × V)`; a native `Set` as an insertion-ordered duplicate-free
list `List V`; a native `Array` as a `List V`.  `undefined` results (from
the `?.` optional-chaining operator) are modelled with `Option`:
`none` stands for `undefined`.
-/

namespace GroupMap

/-! ## Model of the native `Map` primitive -/

/-- Native `Map.prototype.get`: value at the first (and in a real `Map`,
only) entry with the given key, `none` (= `undefined`) when absent. -/
def mget {K V : Type} [DecidableEq K] : List (K × V) → K → Option V
  | [], _ => none
  | p :: rest, k => if p.1 = k then some p.2 else mget rest k

/-- Native `Map.prototype.has`. -/
def mhas {K V : Type} [DecidableEq K] : List (K × V) → K → Bool
  | [], _ => false
  | p :: rest, k => if p.1 = k then true else mhas rest k

/-- Native `Map.prototype.set`: overwrite the entry in place when the key is
present (keeping its position in the iteration order), otherwise append a
fresh entry at the end. -/
def mset {K V : Type} [DecidableEq K] : List (K × V) → K → V → List (K × V)
  | [], k, v => [(k, v)]
  | p :: rest, k, v => if p.1 = k then (k, v) :: rest else p :: mset rest k v

/-- Native `Map.prototype.delete` (state change only): remove the entry with
the given key.  Keys are unique in a real `Map`, so removing every pair with
that key is the same operation. -/
def mdelete {K V : Type} [DecidableEq K] (m : List (K × V)) (k : K) : List (K × V) :=
  m.filter (fun p => !decide (p.1 = k))

/-! ## Model of the native `Set` primitive -/

/-- Native `Set.prototype.add`: no-op when the value is already present,
otherwise append at the end. -/
def sadd {V : Type} [DecidableEq V] (s : List V) (v : V) : List V :=
  if v ∈ s then s else s ++ [v]

/-- `new Set(values)`: insert the values one by one into a fresh set. -/
def mkSet {V : Type} [DecidableEq V] (vs : List V) : List V :=
  vs.foldl sadd []

/-- Native `Set.prototype.delete` (state change only): remove the value. -/
def sdelete {V : Type} [DecidableEq V] (s : List V) (v : V) : List V :=
  s.filter (fun x => !decide (x = v))

/-! ## The `MapMap` class (src/src/MapMap.js)

State: the outer native `Map`, i.e. `Map<groupId, Map<key, value>>`.
All methods translate the class body line by line; mutation of the inner
map in place is modelled by writing the updated inner map back at the
group's unchanged position with `mset`. -/

/-- Outer state of a `MapMap` instance. -/
abbrev MapMapState (G K V : Type) := List (G × List (K × V))

namespace MapMap

variable {G K V : Type} [DecidableEq G] [DecidableEq K]

/-- `has(groupId) { return super.has(groupId); }` -/
def has (s : MapMapState G K V) (g : G) : Bool :=
  mhas s g

/-- `hasSub(groupId, key) { return super.get(groupId)?.has(key); }`
The optional chaining yields `undefined` (`none`) when the group is
absent, otherwise the boolean from the inner `Map.has`. -/
def hasSub (s : MapMapState G K V) (g : G) (k : K) : Option Bool :=
  (mget s g).map (fun sub => mhas sub k)

/-- `hasAll`: `false` when the group is absent, else `keys.every(k => sub.has(k))`. -/
def hasAll (s : MapMapState G K V) (g : G) (ks : List K) : Bool :=
  match mget s g with
  | none => false
  | some sub => ks.all (fun k => mhas sub k)

/-- `hasAny`: `false` when the group is absent, else `keys.some(k => sub.has(k))`. -/
def hasAny (s : MapMapState G K V) (g : G) (ks : List K) : Bool :=
  match mget s g with
  | none => false
  | some sub => ks.any (fun k => mhas sub k)

/-- `get(groupId, key) { return super.get(groupId)?.get(key); }` -/
def get (s : MapMapState G K V) (g : G) (k : K) : Option V :=
  (mget s g).bind (fun sub => mget sub k)

/-- `getAll(groupId) { return super.get(groupId); }` -/
def getAll (s : MapMapState G K V) (g : G) : Option (List (K × V)) :=
  mget s g

/-- `set(groupId, key, value)`: fetch the inner map, creating and storing a
fresh one when absent, then `sub.set(key, value)`.  Returns `this`, i.e.
the updated state. -/
def set (s : MapMapState G K V) (g : G) (k : K) (v : V) : MapMapState G K V :=
  match mget s g with
  | none => mset s g (mset [] k v)
  | some sub => mset s g (mset sub k v)

/-- The `for (const k of keys)` loop inside `delete`: skip missing keys,
otherwise record the prior value in `out` and delete the key from `sub`.
Returns the final `(sub, out)`. -/
def deleteLoop (ks : List K) (sub out : List (K × V)) :
    List (K × V) × List (K × V) :=
  match ks with
  | [] => (sub, out)
  | k :: rest =>
    match mget sub k with
    | none => deleteLoop rest sub out
    | some v => deleteLoop rest (mdelete sub k) (mset out k v)

/-- `delete(groupId, ...keys)`: returns the map of removed items and the
resulting state.  Early-returns the empty map when `keys` is empty or the
group is absent; drops the group when the inner map became empty. -/
def delete (s : MapMapState G K V) (g : G) (ks : List K) :
    List (K × V) × MapMapState G K V :=
  if ks = [] then ([], s) else
  match mget s g with
  | none => ([], s)
  | some sub =>
    let r := deleteLoop ks sub []
    (r.2, if r.1.length = 0 then mdelete s g else mset s g r.1)

/-- `flush(groupId)`: returns the former inner map (a fresh empty map when
the group is absent) and the resulting state. -/
def flush (s : MapMapState G K V) (g : G) :
    List (K × V) × MapMapState G K V :=
  match mget s g with
  | none => ([], s)
  | some sub => (sub, mdelete s g)

/-- `keysOf(groupId) { return super.get(groupId)?.keys(); }` -/
def keysOf (s : MapMapState G K V) (g : G) : Option (List K) :=
  (mget s g).map (fun sub => sub.map Prod.fst)

/-- `valuesOf(groupId) { return super.get(groupId)?.values(); }` -/
def valuesOf (s : MapMapState G K V) (g : G) : Option (List V) :=
  (mget s g).map (fun sub => sub.map Prod.snd)

/-- `entriesOf(groupId) { return super.get(groupId)?.entries(); }` -/
def entriesOf (s : MapMapState G K V) (g : G) : Option (List (K × V)) :=
  mget s g

/-- `MapMap` declares no `[Symbol.iterator]`, so iterating an instance uses
the inherited native `Map` iterator: one `[groupId, innerMap]` entry per
group, in insertion order. -/
def iter (s : MapMapState G K V) : List (G × List (K × V)) :=
  s

/-- Modelled from the spec: the full traversal the specification describes
for the keyed variant — every `(groupId, key, value)` triple, for each
group in outer iteration order, for each entry in inner iteration order.
No such iterator exists in src/src/MapMap.js; this definition follows the
spec's words and is compared against the class's actual (inherited)
iteration. -/
def traversalSpec (s : MapMapState G K V) : List (G × K × V) :=
  s.flatMap (fun p => p.2.map (fun q => (p.1, q.1, q.2)))

/-- The method names declared in the `MapMap` class body
(src/src/MapMap.js lines 12-168), in source order. -/
def ownMethods : List String :=
  ["has", "hasSub", "hasAll", "hasAny", "get", "getAll", "set",
   "delete", "flush", "keysOf", "valuesOf", "entriesOf"]

/-- The read/write operations of `MapMap` named by the specification, as a
syntax of operation sequences.  Read operations do not change the state. -/
inductive Op (G K V : Type) where
  | has (g : G)
  | hasSub (g : G) (k : K)
  | hasAll (g : G) (ks : List K)
  | hasAny (g : G) (ks : List K)
  | get (g : G) (k : K)
  | getAll (g : G)
  | set (g : G) (k : K) (v : V)
  | delete (g : G) (ks : List K)
  | flush (g : G)

/-- State effect of a single `MapMap` operation. -/
def step (s : MapMapState G K V) : Op G K V → MapMapState G K V
  | .set g k v => MapMap.set s g k v
  | .delete g ks => (MapMap.delete s g ks).2
  | .flush g => (MapMap.flush s g).2
  | _ => s

/-- Run a sequence of operations from a fresh (empty) instance. -/
def run (ops : List (Op G K V)) : MapMapState G K V :=
  ops.foldl step []

end MapMap

/-! ## The `MapSet` classes (src/src/MapSet.js)

The file contains two class declarations named `MapSet`.  `MapSetA` below
embeds the first one (lines 20-97: `valuesOf`, `keysOf`, `has`, `set`,
`delete`, `[Symbol.iterator]`); `MapSet` embeds the second, full one
(lines 110-228).  State: `Map<groupId, Set<value>>`. -/

/-- Outer state of a grouped-`Set` instance (either class). -/
abbrev MapSetState (G V : Type) := List (G × List V)

namespace MapSetA

variable {G V : Type} [DecidableEq G] [DecidableEq V]

/-- `valuesOf(groupId) { return super.get(groupId)?.values(); }` —
`undefined` (`none`) when the group is absent. -/
def valuesOf (s : MapSetState G V) (g : G) : Option (List V) :=
  mget s g

/-- `keysOf(groupId) { return this.valuesOf(groupId); }` -/
def keysOf (s : MapSetState G V) (g : G) : Option (List V) :=
  valuesOf s g

/-- The `*[Symbol.iterator]()` generator (lines 90-96): for each
`[groupId, sub]` of the outer entries, for each value of `sub`, yield
`[groupId, value]`. -/
def iter (s : MapSetState G V) : List (G × V) :=
  s.flatMap (fun p => p.2.map (fun v => (p.1, v)))

/-- Modelled from the spec: the full traversal the specification describes
for the set variant — every `(groupId, value)` pair, for each group in the
outer store's iteration order, for each value in that group's set's
iteration order. -/
def traversalSpec (s : MapSetState G V) : List (G × V) :=
  s.flatMap (fun p => p.2.map (fun v => (p.1, v)))

/-- Method names declared in the first `MapSet` class body (lines 20-97). -/
def ownMethods : List String :=
  ["valuesOf", "keysOf", "has", "set", "delete", "iterator"]

end MapSetA

namespace MapSet

variable {G V : Type} [DecidableEq G] [DecidableEq V]

/-- `has(groupId) { return super.has(groupId); }` -/
def has (s : MapSetState G V) (g : G) : Bool :=
  mhas s g

/-- `hasSub(groupId, value) { return super.get(groupId)?.has(value); }` —
`undefined` (`none`) when the group is absent. -/
def hasSub (s : MapSetState G V) (g : G) (v : V) : Option Bool :=
  (mget s g).map (fun sub => decide (v ∈ sub))

/-- `hasAll`: `false` when the group is absent, else `values.every(v => sub.has(v))`. -/
def hasAll (s : MapSetState G V) (g : G) (vs : List V) : Bool :=
  match mget s g with
  | none => false
  | some sub => vs.all (fun v => decide (v ∈ sub))

/-- `hasAny`: `false` when the group is absent, else `values.some(v => sub.has(v))`. -/
def hasAny (s : MapSetState G V) (g : G) (vs : List V) : Bool :=
  match mget s g with
  | none => false
  | some sub => vs.any (fun v => decide (v ∈ sub))

/-- `add(groupId, ...values)`: no-op on zero values, otherwise fetch the
inner set (creating and storing a fresh one when absent) and add every
value to it.  Returns `this`, i.e. the updated state. -/
def add (s : MapSetState G V) (g : G) (vs : List V) : MapSetState G V :=
  if vs = [] then s else
  match mget s g with
  | none => mset s g (vs.foldl sadd [])
  | some sub => mset s g (vs.foldl sadd sub)

/-- `set(groupId, ...values)`: with one or more values store
`new Set(values)` for the group; with zero values delete the group. -/
def set (s : MapSetState G V) (g : G) (vs : List V) : MapSetState G V :=
  if vs = [] then mdelete s g else mset s g (mkSet vs)

/-- The `for (const v of values)` loop inside `delete`: skip values not in
`sub`, otherwise delete them from `sub` and add them to `removed`. -/
def deleteLoop (vs : List V) (sub removed : List V) : List V × List V :=
  match vs with
  | [] => (sub, removed)
  | v :: rest =>
    if v ∈ sub then deleteLoop rest (sdelete sub v) (sadd removed v)
    else deleteLoop rest sub removed

/-- `delete(groupId, ...values)`: returns the set of removed values and the
resulting state; drops the group when the inner set became empty. -/
def delete (s : MapSetState G V) (g : G) (vs : List V) :
    List V × MapSetState G V :=
  if vs = [] then ([], s) else
  match mget s g with
  | none => ([], s)
  | some sub =>
    let r := deleteLoop vs sub []
    (r.2, if r.1.length = 0 then mdelete s g else mset s g r.1)

/-- `flush(groupId)`: returns the former inner set (a fresh empty set when
the group is absent) and the resulting state. -/
def flush (s : MapSetState G V) (g : G) : List V × MapSetState G V :=
  match mget s g with
  | none => ([], s)
  | some sub => (sub, mdelete s g)

/-- `*valuesOf(groupId)` (generator, second class): yields the group's
values, nothing when the group is absent. -/
def valuesOf (s : MapSetState G V) (g : G) : List V :=
  match mget s g with
  | none => []
  | some sub => sub

/-- Method names declared in the second `MapSet` class body (lines 110-228). -/
def ownMethods : List String :=
  ["has", "hasSub", "hasAll", "hasAny", "add", "set", "delete", "flush",
   "valuesOf"]

/-- The operations of the second `MapSet` class named by the
specification's invariant claim. -/
inductive Op (G V : Type) where
  | has (g : G)
  | hasSub (g : G) (v : V)
  | hasAll (g : G) (vs : List V)
  | hasAny (g : G) (vs : List V)
  | add (g : G) (vs : List V)
  | set (g : G) (vs : List V)
  | delete (g : G) (vs : List V)
  | flush (g : G)

/-- State effect of a single `MapSet` operation. -/
def step (s : MapSetState G V) : Op G V → MapSetState G V
  | .add g vs => MapSet.add s g vs
  | .set g vs => MapSet.set s g vs
  | .delete g vs => (MapSet.delete s g vs).2
  | .flush g => (MapSet.flush s g).2
  | _ => s

/-- Run a sequence of operations from a fresh (empty) instance. -/
def run (ops : List (Op G V)) : MapSetState G V :=
  ops.foldl step []

end MapSet

/-! ## The `MapArray` class (src/src/MapArray.js)

State: `Map<groupId, V[]>`. -/

/-- Outer state of a `MapArray` instance. -/
abbrev MapArrayState (G V : Type) := List (G × List V)

namespace MapArray

variable {G V : Type} [DecidableEq G] [DecidableEq V]

/-- `has(groupId) { return super.has(groupId); }` -/
def has (s : MapArrayState G V) (g : G) : Bool :=
  mhas s g

/-- `hasSub(groupId, value) { return super.get(groupId)?.includes(value) ?? false; }`
The `?? false` turns the `undefined` of an absent group into `false`, so
the result is a genuine boolean. -/
def hasSub (s : MapArrayState G V) (g : G) (v : V) : Bool :=
  ((mget s g).map (fun arr => decide (v ∈ arr))).getD false

/-- `hasAll`: `false` when the group is absent, else `values.every(v => sub.includes(v))`. -/
def hasAll (s : MapArrayState G V) (g : G) (vs : List V) : Bool :=
  match mget s g with
  | none => false
  | some arr => vs.all (fun v => decide (v ∈ arr))

/-- `hasAny`: `false` when the group is absent, else `values.some(v => sub.includes(v))`. -/
def hasAny (s : MapArrayState G V) (g : G) (vs : List V) : Bool :=
  match mget s g with
  | none => false
  | some arr => vs.any (fun v => decide (v ∈ arr))

/-- `add(groupId, ...values)`: no-op on zero values; push onto the existing
array, or store a fresh copy `[...values]` when the group is absent. -/
def add (s : MapArrayState G V) (g : G) (vs : List V) : MapArrayState G V :=
  if vs = [] then s else
  match mget s g with
  | some arr => mset s g (arr ++ vs)
  | none => mset s g vs

/-- `set(groupId, ...values)`: with one or more values store the fresh copy
`[...values]` for the group; with zero values delete the group. -/
def set (s : MapArrayState G V) (g : G) (vs : List V) : MapArrayState G V :=
  if vs = [] then mdelete s g else mset s g vs

/-- The `while ((idx = arr.indexOf(v)) !== -1) { arr.splice(idx, 1);
removed.push(v); }` loop inside `delete`: as long as `v` occurs in `arr`,
remove its first occurrence and push `v` onto `removed`. -/
def spliceAll (arr : List V) (v : V) (removed : List V) : List V × List V :=
  if h : v ∈ arr then spliceAll (arr.erase v) v (removed ++ [v])
  else (arr, removed)
termination_by arr.length
decreasing_by
  rw [List.length_erase_of_mem h]
  exact Nat.sub_lt (List.length_pos.mpr (List.ne_nil_of_mem h)) Nat.one_pos

/-- The `for (const v of values)` loop inside `delete`, running the splice
loop for each requested value in turn. -/
def deleteLoop (vs : List V) (arr removed : List V) : List V × List V :=
  match vs with
  | [] => (arr, removed)
  | v :: rest =>
    let r := spliceAll arr v removed
    deleteLoop rest r.1 r.2

/-- `delete(groupId, ...values)`: returns the array of removed occurrences
and the resulting state; drops the group when the array became empty. -/
def delete (s : MapArrayState G V) (g : G) (vs : List V) :
    List V × MapArrayState G V :=
  if vs = [] then ([], s) else
  match mget s g with
  | none => ([], s)
  | some arr =>
    let r := deleteLoop vs arr []
    (r.2, if r.1.length = 0 then mdelete s g else mset s g r.1)

/-- `flush(groupId)`: returns the former array (a fresh empty array when
the group is absent) and the resulting state. -/
def flush (s : MapArrayState G V) (g : G) : List V × MapArrayState G V :=
  match mget s g with
  | none => ([], s)
  | some arr => (arr, mdelete s g)

/-- `*valuesOf(groupId)` (generator): yields the group's values, nothing
when the group is absent. -/
def valuesOf (s : MapArrayState G V) (g : G) : List V :=
  match mget s g with
  | none => []
  | some arr => arr

/-- `MapArray` declares no `[Symbol.iterator]`, so iterating an instance
uses the inherited native `Map` iterator: one `[groupId, array]` entry per
group, in insertion order. -/
def iter (s : MapArrayState G V) : List (G × List V) :=
  s

/-- Modelled from the spec: the full traversal the specification describes
for the list variant — every `(groupId, value)` pair in outer-then-inner
nesting order.  No such iterator exists in src/src/MapArray.js. -/
def traversalSpec (s : MapArrayState G V) : List (G × V) :=
  s.flatMap (fun p => p.2.map (fun v => (p.1, v)))

/-- Method names declared in the `MapArray` class body
(src/src/MapArray.js lines 19-154), in source order. -/
def ownMethods : List String :=
  ["has", "hasSub", "hasAll", "hasAny", "add", "set", "delete", "flush",
   "valuesOf"]

/-- The operations of `MapArray` named by the specification's invariant
claim. -/
inductive Op (G V : Type) where
  | has (g : G)
  | hasSub (g : G) (v : V)
  | hasAll (g : G) (vs : List V)
  | hasAny (g : G) (vs : List V)
  | add (g : G) (vs : List V)
  | set (g : G) (vs : List V)
  | delete (g : G) (vs : List V)
  | flush (g : G)

/-- State effect of a single `MapArray` operation. -/
def step (s : MapArrayState G V) : Op G V → MapArrayState G V
  | .add g vs => MapArray.add s g vs
  | .set g vs => MapArray.set s g vs
  | .delete g vs => (MapArray.delete s g vs).2
  | .flush g => (MapArray.flush s g).2
  | _ => s

/-- Run a sequence of operations from a fresh (empty) instance. -/
def run (ops : List (Op G V)) : MapArrayState G V :=
  ops.foldl step []

end MapArray

/-- Method names of the native `Map.prototype` (the superclass of all three
variants), relevant to whether an undeclared method could be inherited. -/
def mapNativeMethods : List String :=
  ["get", "set", "has", "delete", "clear", "forEach", "keys", "values",
   "entries", "size"]

/-! ## Basic lemmas about the native-`Map` model -/

section MapLemmas

variable {K V : Type} [DecidableEq K]

@[simp] theorem mget_nil (k : K) : mget ([] : List (K × V)) k = none := rfl

theorem mget_cons (p : K × V) (rest : List (K × V)) (k : K) :
    mget (p :: rest) k = if p.1 = k then some p.2 else mget rest k := rfl

theorem mhas_cons (p : K × V) (rest : List (K × V)) (k : K) :
    mhas (p :: rest) k = if p.1 = k then true else mhas rest k := rfl

theorem mhas_eq_isSome (m : List (K × V)) (k : K) :
    mhas m k = (mget m k).isSome := by
  induction m with
  | nil => rfl
  | cons p rest ih =>
      by_cases h : p.1 = k <;> simp [mhas_cons, mget_cons, h, ih]

theorem mget_eq_none_iff (m : List (K × V)) (k : K) :
    mget m k = none ↔ mhas m k = false := by
  rw [mhas_eq_isSome]
  cases hm : mget m k <;> simp [hm]

theorem mget_mset (m : List (K × V)) (k : K) (v : V) (k2 : K) :
    mget (mset m k v) k2 = if k2 = k then some v else mget m k2 := by
  induction m with
  | nil =>
      by_cases h : k2 = k
      · simp [mset, mget_cons, h]
      · have hk : ¬ (k = k2) := fun hh => h hh.symm
        simp [mset, mget_cons, h, hk]
  | cons p rest ih =>
      by_cases hp : p.1 = k
      · simp only [mset, if_pos hp, mget_cons]
        by_cases h2 : k2 = k
        · simp [h2]
        · have hk : ¬ (k = k2) := fun hh => h2 hh.symm
          have hp2 : ¬ (p.1 = k2) := fun hh => h2 (hh ▸ hp)
          simp [hk, hp2, h2]
      · simp only [mset, if_neg hp, mget_cons]
        by_cases h3 : p.1 = k2
        · have hne : ¬ (k2 = k) := fun h => hp (h ▸ h3)
          simp [h3, hne]
        · simp [h3, ih]

theorem mget_mdelete (m : List (K × V)) (k k2 : K) :
    mget (mdelete m k) k2 = if k2 = k then none else mget m k2 := by
  induction m with
  | nil => by_cases h : k2 = k <;> simp [mdelete, h]
  | cons p rest ih =>
      by_cases hp : p.1 = k
      · have hstep : mdelete (p :: rest) k = mdelete rest k := by
          simp [mdelete, List.filter_cons, hp]
        rw [hstep, ih]
        by_cases h2 : k2 = k
        · simp [h2]
        · have hp2 : ¬ (p.1 = k2) := fun hh => h2 (hh ▸ hp)
          simp [h2, mget_cons, hp2]
      · have hstep : mdelete (p :: rest) k = p :: mdelete rest k := by
          simp [mdelete, List.filter_cons, hp]
        rw [hstep]
        by_cases h3 : p.1 = k2
        · have hne : ¬ (k2 = k) := fun h => hp (h ▸ h3)
          simp [mget_cons, h3, hne]
        · simp [mget_cons, h3, ih]

theorem mem_mset (m : List (K × V)) (k : K) (v : V) (q : K × V) :
    q ∈ mset m k v → q = (k, v) ∨ q ∈ m := by
  induction m with
  | nil => intro h; simp [mset] at h; exact Or.inl h
  | cons p rest ih =>
      by_cases hp : p.1 = k <;> intro h
      · simp only [mset, if_pos hp, List.mem_cons] at h
        rcases h with h | h
        · exact Or.inl h
        · exact Or.inr (List.mem_cons_of_mem _ h)
      · simp only [mset, if_neg hp, List.mem_cons] at h
        rcases h with h | h
        · exact Or.inr (by rw [h]; exact List.mem_cons_self p rest)
        · rcases ih h with h2 | h2
          · exact Or.inl h2
          · exact Or.inr (List.mem_cons_of_mem _ h2)

theorem mset_ne_nil (m : List (K × V)) (k : K) (v : V) : mset m k v ≠ [] := by
  cases m with
  | nil => simp [mset]
  | cons p rest => by_cases hp : p.1 = k <;> simp [mset, hp]

theorem mem_mdelete (m : List (K × V)) (k : K) (q : K × V) :
    q ∈ mdelete m k → q ∈ m :=
  fun h => List.mem_of_mem_filter h

end MapLemmas

/-! ## Basic lemmas about the native-`Set` model -/

section SetLemmas

variable {V : Type} [DecidableEq V]

theorem mem_sadd (s : List V) (v x : V) : x ∈ sadd s v ↔ x ∈ s ∨ x = v := by
  unfold sadd
  by_cases h : v ∈ s
  · simp [h]
    intro hx; exact hx ▸ h
  · simp [h]

theorem sadd_ne_nil (s : List V) (v : V) : sadd s v ≠ [] := by
  unfold sadd
  by_cases h : v ∈ s
  · simp [h]; exact List.ne_nil_of_mem h
  · simp [h]

theorem foldl_sadd_ne_nil (vs : List V) (s : List V) (h : s ≠ []) :
    vs.foldl sadd s ≠ [] := by
  induction vs generalizing s with
  | nil => simpa using h
  | cons v rest ih => simpa using ih (sadd s v) (sadd_ne_nil s v)

theorem mkSet_cons_ne_nil (v : V) (vs : List V) : mkSet (v :: vs) ≠ [] := by
  unfold mkSet
  simpa using foldl_sadd_ne_nil vs (sadd [] v) (sadd_ne_nil [] v)

theorem mem_sdelete (s : List V) (v x : V) :
    x ∈ sdelete s v ↔ x ∈ s ∧ x ≠ v := by
  simp [sdelete]

end SetLemmas

/-! ## Characterization of the delete loops -/

section DeleteLoopLemmas

variable {K V : Type} [DecidableEq K]

theorem mget_eq_none_forall (m : List (K × V)) (k : K) (h : mget m k = none) :
    ∀ p ∈ m, ¬ p.1 = k := by
  induction m with
  | nil => simp
  | cons q rest ih =>
      rw [mget_cons] at h
      by_cases hq : q.1 = k
      · simp [hq] at h
      · intro p hp
        rcases List.mem_cons.mp hp with hp | hp
        · exact fun hpk => hq (by rw [← hp]; exact hpk)
        · exact ih (by simpa [hq] using h) p hp

theorem mapMap_deleteLoop_out (ks : List K) (sub out : List (K × V)) (k : K) :
    mget (MapMap.deleteLoop ks sub out).2 k =
      if k ∈ ks ∧ (mget sub k).isSome then mget sub k else mget out k := by
  induction ks generalizing sub out with
  | nil => simp [MapMap.deleteLoop]
  | cons a rest ih =>
      cases hm : mget sub a with
      | none =>
          unfold MapMap.deleteLoop
          rw [hm]
          rw [ih]
          by_cases hk : k = a
          · subst hk; simp [hm]
          · simp [List.mem_cons, hk]
      | some v =>
          unfold MapMap.deleteLoop
          rw [hm]
          rw [ih]
          by_cases hk : k = a
          · subst hk
            simp [mget_mdelete, mget_mset, hm]
          · simp [mget_mdelete, mget_mset, hk, List.mem_cons]

theorem mapMap_deleteLoop_sub (ks : List K) (sub out : List (K × V)) :
    (MapMap.deleteLoop ks sub out).1 =
      sub.filter (fun p => !decide (p.1 ∈ ks)) := by
  induction ks generalizing sub out with
  | nil => simp [MapMap.deleteLoop]
  | cons a rest ih =>
      cases hm : mget sub a with
      | none =>
          unfold MapMap.deleteLoop
          rw [hm, ih]
          apply List.filter_congr
          intro p hp
          have hne := mget_eq_none_forall sub a hm p hp
          simp [List.mem_cons, hne]
      | some v =>
          unfold MapMap.deleteLoop
          rw [hm, ih, mdelete, List.filter_filter]
          apply List.filter_congr
          intro p hp
          by_cases hpa : p.1 = a <;> simp [List.mem_cons, hpa]

end DeleteLoopLemmas

section SetDeleteLoopLemmas

variable {V : Type} [DecidableEq V]

theorem mapSet_deleteLoop_sub (vs : List V) (sub removed : List V) :
    (MapSet.deleteLoop vs sub removed).1 =
      sub.filter (fun x => !decide (x ∈ vs)) := by
  induction vs generalizing sub removed with
  | nil => simp [MapSet.deleteLoop]
  | cons v rest ih =>
      by_cases hv : v ∈ sub
      · simp only [MapSet.deleteLoop, if_pos hv]
        rw [ih, sdelete, List.filter_filter]
        apply List.filter_congr
        intro x hx
        by_cases hxv : x = v <;> simp [List.mem_cons, hxv]
      · simp only [MapSet.deleteLoop, if_neg hv]
        rw [ih]
        apply List.filter_congr
        intro x hx
        have hne : ¬ x = v := fun h => hv (h ▸ hx)
        simp [List.mem_cons, hne]

theorem mapSet_deleteLoop_removed (vs : List V) (sub removed : List V) (x : V) :
    x ∈ (MapSet.deleteLoop vs sub removed).2 ↔
      x ∈ removed ∨ (x ∈ vs ∧ x ∈ sub) := by
  induction vs generalizing sub removed with
  | nil => simp [MapSet.deleteLoop]
  | cons v rest ih =>
      by_cases hv : v ∈ sub
      · simp only [MapSet.deleteLoop, if_pos hv]
        rw [ih]
        simp only [mem_sadd, mem_sdelete, List.mem_cons]
        by_cases hxv : x = v
        · subst hxv; simp [hv]
        · simp [hxv]
      · simp only [MapSet.deleteLoop, if_neg hv]
        rw [ih]
        simp only [List.mem_cons]
        by_cases hxv : x = v
        · subst hxv; simp [hv]
        · simp [hxv]

theorem filter_erase_self (arr : List V) (v : V) :
    (arr.erase v).filter (fun x => !decide (x = v)) =
      arr.filter (fun x => !decide (x = v)) := by
  induction arr with
  | nil => rfl
  | cons a rest ih =>
      rw [List.erase_cons]
      by_cases ha : a = v
      · simp [ha, List.filter_cons]
      · simp only [beq_iff_eq, if_neg ha, List.filter_cons]
        simp [ih, ha]

theorem spliceAll_eq (arr : List V) (v : V) (removed : List V) :
    MapArray.spliceAll arr v removed =
      (arr.filter (fun x => !decide (x = v)),
       removed ++ List.replicate (arr.count v) v) := by
  generalize hn : arr.count v = n
  induction n generalizing arr removed with
  | zero =>
      have hv : v ∉ arr := List.count_eq_zero.mp hn
      rw [MapArray.spliceAll, dif_neg hv]
      have hfilter : arr.filter (fun x => !decide (x = v)) = arr :=
        List.filter_eq_self.mpr (fun a ha => by
          simp
          exact fun h => hv (h ▸ ha))
      simp [hfilter]
  | succ n ih =>
      have hv : v ∈ arr := by
        apply List.count_pos_iff.mp
        omega
      rw [MapArray.spliceAll, dif_pos hv]
      have hcount : (arr.erase v).count v = n := by
        rw [List.count_erase_self]
        omega
      rw [ih (arr.erase v) (removed ++ [v]) hcount]
      rw [filter_erase_self]
      simp [List.replicate_succ, List.append_assoc]

theorem mapArray_deleteLoop_arr (vs : List V) (arr removed : List V) :
    (MapArray.deleteLoop vs arr removed).1 =
      arr.filter (fun x => !decide (x ∈ vs)) := by
  induction vs generalizing arr removed with
  | nil => simp [MapArray.deleteLoop]
  | cons v rest ih =>
      simp only [MapArray.deleteLoop]
      rw [spliceAll_eq]
      simp only []
      rw [ih, List.filter_filter]
      apply List.filter_congr
      intro x hx
      by_cases hxv : x = v <;> simp [List.mem_cons, hxv]

theorem mapArray_deleteLoop_removed (vs : List V) (arr removed : List V) (x : V) :
    ((MapArray.deleteLoop vs arr removed).2).count x =
      removed.count x + (if x ∈ vs then arr.count x else 0) := by
  induction vs generalizing arr removed with
  | nil => simp [MapArray.deleteLoop]
  | cons v rest ih =>
      simp only [MapArray.deleteLoop]
      rw [spliceAll_eq]
      simp only []
      rw [ih]
      by_cases hxv : x = v
      · subst hxv
        have hzero : (arr.filter (fun y => !decide (y = x))).count x = 0 := by
          rw [List.count_eq_zero]
          simp [List.mem_filter]
        rw [List.count_append, List.count_replicate_self, hzero]
        simp [List.mem_cons]
      · have hvx : ¬ v = x := fun hh => hxv hh.symm
        have hkeep : (arr.filter (fun y => !decide (y = v))).count x =
            arr.count x :=
          List.count_filter (by simp [hxv])
        rw [List.count_append, List.count_replicate, hkeep]
        simp [List.mem_cons, hxv, hvx]

end SetDeleteLoopLemmas

section MoreHelpers

variable {K V : Type} [DecidableEq K]

theorem mget_some_mem (m : List (K × V)) (k : K) (v : V)
    (h : mget m k = some v) : (k, v) ∈ m := by
  induction m with
  | nil => simp [mget] at h
  | cons p rest ih =>
      rw [mget_cons] at h
      by_cases hp : p.1 = k
      · rw [if_pos hp] at h
        have hv : p.2 = v := by injection h
        have : (k, v) = p := by
          rw [← hp, ← hv]
        rw [this]
        exact List.mem_cons_self p rest
      · exact List.mem_cons_of_mem _ (ih (by simpa [hp] using h))

theorem mhas_mset_self (m : List (K × V)) (k : K) (v : V) :
    mhas (mset m k v) k = true := by
  rw [mhas_eq_isSome, mget_mset]
  simp

end MoreHelpers

/-! ## Reachable-state invariant: no group is ever stored with an empty
inner collection -/

/-- Every group entry of the outer store has a non-empty inner collection. -/
def innersNonempty {G I : Type} (s : List (G × List I)) : Prop :=
  ∀ p ∈ s, 0 < p.2.length

section Invariant

variable {G K V : Type} [DecidableEq G] [DecidableEq K] [DecidableEq V]

theorem innersNonempty_nil {G I : Type} : innersNonempty ([] : List (G × List I)) := by
  intro p hp; simp at hp

theorem innersNonempty_mdelete {G I : Type} [DecidableEq G]
    (s : List (G × List I)) (g : G) (h : innersNonempty s) :
    innersNonempty (mdelete s g) :=
  fun p hp => h p (mem_mdelete s g p hp)

theorem innersNonempty_mset {G I : Type} [DecidableEq G]
    (s : List (G × List I)) (g : G) (sub : List I)
    (h : innersNonempty s) (hsub : 0 < sub.length) :
    innersNonempty (mset s g sub) := by
  intro p hp
  rcases mem_mset s g sub p hp with hq | hq
  · rw [hq]
    exact hsub
  · exact h p hq

theorem mapMap_step_inv (s : MapMapState G K V) (op : MapMap.Op G K V)
    (h : innersNonempty s) : innersNonempty (MapMap.step s op) := by
  cases op with
  | set g k v =>
      show innersNonempty (MapMap.set s g k v)
      unfold MapMap.set
      cases hg : mget s g with
      | none =>
          exact innersNonempty_mset s g _ h
            (List.length_pos.mpr (mset_ne_nil _ k v))
      | some sub =>
          exact innersNonempty_mset s g _ h
            (List.length_pos.mpr (mset_ne_nil _ k v))
  | delete g ks =>
      show innersNonempty (MapMap.delete s g ks).2
      unfold MapMap.delete
      by_cases hks : ks = []
      · simpa [hks] using h
      · rw [if_neg hks]
        cases hg : mget s g with
        | none => exact h
        | some sub =>
            simp only []
            by_cases hlen : (MapMap.deleteLoop ks sub []).1.length = 0
            · simpa [hlen] using innersNonempty_mdelete s g h
            · rw [if_neg hlen]
              exact innersNonempty_mset s g _ h (by omega)
  | flush g =>
      show innersNonempty (MapMap.flush s g).2
      unfold MapMap.flush
      cases hg : mget s g with
      | none => exact h
      | some sub => exact innersNonempty_mdelete s g h
  | has g => exact h
  | hasSub g k => exact h
  | hasAll g ks => exact h
  | hasAny g ks => exact h
  | get g k => exact h
  | getAll g => exact h

theorem mapMap_run_inv_aux (ops : List (MapMap.Op G K V))
    (s : MapMapState G K V) (h : innersNonempty s) :
    innersNonempty (ops.foldl MapMap.step s) := by
  induction ops generalizing s with
  | nil => exact h
  | cons op rest ih => exact ih _ (mapMap_step_inv s op h)

theorem mapSet_step_inv (s : MapSetState G V) (op : MapSet.Op G V)
    (h : innersNonempty s) : innersNonempty (MapSet.step s op) := by
  cases op with
  | add g vs =>
      show innersNonempty (MapSet.add s g vs)
      unfold MapSet.add
      by_cases hvs : vs = []
      · simpa [hvs] using h
      · rw [if_neg hvs]
        cases hg : mget s g with
        | none =>
            exact innersNonempty_mset s g _ h
              (List.length_pos.mpr (by
                cases vs with
                | nil => exact absurd rfl hvs
                | cons v rest =>
                    simpa using foldl_sadd_ne_nil rest (sadd [] v) (sadd_ne_nil [] v)))
        | some sub =>
            exact innersNonempty_mset s g _ h
              (List.length_pos.mpr (by
                cases vs with
                | nil => exact absurd rfl hvs
                | cons v rest =>
                    simpa using foldl_sadd_ne_nil rest (sadd sub v) (sadd_ne_nil sub v)))
  | set g vs =>
      show innersNonempty (MapSet.set s g vs)
      unfold MapSet.set
      by_cases hvs : vs = []
      · simpa [hvs] using innersNonempty_mdelete s g h
      · rw [if_neg hvs]
        refine innersNonempty_mset s g _ h (List.length_pos.mpr ?_)
        cases vs with
        | nil => exact absurd rfl hvs
        | cons v rest => exact mkSet_cons_ne_nil v rest
  | delete g vs =>
      show innersNonempty (MapSet.delete s g vs).2
      unfold MapSet.delete
      by_cases hvs : vs = []
      · simpa [hvs] using h
      · rw [if_neg hvs]
        cases hg : mget s g with
        | none => exact h
        | some sub =>
            simp only []
            by_cases hlen : (MapSet.deleteLoop vs sub []).1.length = 0
            · simpa [hlen] using innersNonempty_mdelete s g h
            · rw [if_neg hlen]
              exact innersNonempty_mset s g _ h (by omega)
  | flush g =>
      show innersNonempty (MapSet.flush s g).2
      unfold MapSet.flush
      cases hg : mget s g with
      | none => exact h
      | some sub => exact innersNonempty_mdelete s g h
  | has g => exact h
  | hasSub g v => exact h
  | hasAll g vs => exact h
  | hasAny g vs => exact h

theorem mapSet_run_inv_aux (ops : List (MapSet.Op G V))
    (s : MapSetState G V) (h : innersNonempty s) :
    innersNonempty (ops.foldl MapSet.step s) := by
  induction ops generalizing s with
  | nil => exact h
  | cons op rest ih => exact ih _ (mapSet_step_inv s op h)

theorem mapArray_step_inv (s : MapArrayState G V) (op : MapArray.Op G V)
    (h : innersNonempty s) : innersNonempty (MapArray.step s op) := by
  cases op with
  | add g vs =>
      show innersNonempty (MapArray.add s g vs)
      unfold MapArray.add
      by_cases hvs : vs = []
      · simpa [hvs] using h
      · rw [if_neg hvs]
        have hpos : 0 < vs.length :=
          List.length_pos.mpr hvs
        cases hg : mget s g with
        | some arr =>
            refine innersNonempty_mset s g _ h ?_
            rw [List.length_append]
            omega
        | none => exact innersNonempty_mset s g _ h hpos
  | set g vs =>
      show innersNonempty (MapArray.set s g vs)
      unfold MapArray.set
      by_cases hvs : vs = []
      · simpa [hvs] using innersNonempty_mdelete s g h
      · rw [if_neg hvs]
        exact innersNonempty_mset s g _ h (List.length_pos.mpr hvs)
  | delete g vs =>
      show innersNonempty (MapArray.delete s g vs).2
      unfold MapArray.delete
      by_cases hvs : vs = []
      · simpa [hvs] using h
      · rw [if_neg hvs]
        cases hg : mget s g with
        | none => exact h
        | some arr =>
            simp only []
            by_cases hlen : (MapArray.deleteLoop vs arr []).1.length = 0
            · simpa [hlen] using innersNonempty_mdelete s g h
            · rw [if_neg hlen]
              exact innersNonempty_mset s g _ h (by omega)
  | flush g =>
      show innersNonempty (MapArray.flush s g).2
      unfold MapArray.flush
      cases hg : mget s g with
      | none => exact h
      | some arr => exact innersNonempty_mdelete s g h
  | has g => exact h
  | hasSub g v => exact h
  | hasAll g vs => exact h
  | hasAny g vs => exact h

theorem mapArray_run_inv_aux (ops : List (MapArray.Op G V))
    (s : MapArrayState G V) (h : innersNonempty s) :
    innersNonempty (ops.foldl MapArray.step s) := by
  induction ops generalizing s with
  | nil => exact h
  | cons op rest ih => exact ih _ (mapArray_step_inv s op h)

end Invariant

/-! ## The claims -/

/-- C10: In each of the three variants, calling `delete(g)` with zero
itemKeys returns an empty removed-items collection and leaves the entire
structure unchanged — the group `g` is neither removed nor created and no
inner collection is modified — even when `g` exists and is non-empty. -/
theorem spec_c10 {G K V : Type} [DecidableEq G] [DecidableEq K] [DecidableEq V] :
    (∀ (s : MapMapState G K V) (g : G), MapMap.delete s g [] = ([], s)) ∧
    (∀ (s : MapSetState G V) (g : G), MapSet.delete s g [] = ([], s)) ∧
    (∀ (s : MapArrayState G V) (g : G), MapArray.delete s g [] = ([], s)) := by
  refine ⟨fun s g => ?_, fun s g => ?_, fun s g => ?_⟩
  · simp [MapMap.delete]
  · simp [MapSet.delete]
  · simp [MapArray.delete]

/-- C10 witness: a concrete instance of the frame property on a one-group
state. -/
theorem spec_c10_witness :
    MapMap.delete ([(1, [(2, 3)])] : MapMapState Nat Nat Nat) 1 [] =
      ([], [(1, [(2, 3)])]) :=
  (spec_c10 (G := Nat) (K := Nat) (V := Nat)).1 [(1, [(2, 3)])] 1

/-- C9: Round trip.  In the keyed variant, `set(g, k, v)` immediately
followed by `get(g, k)` returns `v` and `hasSub(g, k)` returns `true`; in
the set and list variants, `add(g, v)` immediately followed by
`hasSub(g, v)` returns `true`. -/
theorem spec_c9 {G K V : Type} [DecidableEq G] [DecidableEq K] [DecidableEq V] :
    (∀ (s : MapMapState G K V) (g : G) (k : K) (v : V),
       MapMap.get (MapMap.set s g k v) g k = some v ∧
       MapMap.hasSub (MapMap.set s g k v) g k = some true) ∧
    (∀ (s : MapSetState G V) (g : G) (v : V),
       MapSet.hasSub (MapSet.add s g [v]) g v = some true) ∧
    (∀ (s : MapArrayState G V) (g : G) (v : V),
       MapArray.hasSub (MapArray.add s g [v]) g v = true) := by
  refine ⟨fun s g k v => ?_, fun s g v => ?_, fun s g v => ?_⟩
  · unfold MapMap.get MapMap.hasSub MapMap.set
    cases hg : mget s g with
    | none =>
        rw [mget_mset]
        simp [mget_mset, mhas_mset_self]
    | some sub =>
        rw [mget_mset]
        simp [mget_mset, mhas_mset_self]
  · unfold MapSet.hasSub MapSet.add
    cases hg : mget s g with
    | none => simp [mget_mset, mem_sadd]
    | some sub => simp [mget_mset, mem_sadd]
  · unfold MapArray.hasSub MapArray.add
    cases hg : mget s g with
    | none => simp [mget_mset]
    | some arr => simp [mget_mset]

/-- C9 witness: the round trip evaluated on a fresh keyed instance. -/
theorem spec_c9_witness :
    MapMap.get (MapMap.set ([] : MapMapState Nat Nat Nat) 1 2 3) 1 2 = some 3 :=
  ((spec_c9 (G := Nat) (K := Nat) (V := Nat)).1 [] 1 2 3).1

/-- C6: For the set and list variants, `set(g, v0, ...vs)` with one or more
values replaces `g`'s entire inner collection with a freshly constructed
collection built from those values alone (a new `Set` for `MapSet`, a new
array copy for `MapArray`, independent of any previous inner collection),
leaving all other groups unchanged; `set(g)` with zero values deletes the
group `g` entirely.  The operation's return value is the updated instance
itself (the state returned here), enabling chaining. -/
theorem spec_c6 {G V : Type} [DecidableEq G] [DecidableEq V] :
    (∀ (s : MapSetState G V) (g : G) (v0 : V) (vs : List V) (g2 : G),
       mget (MapSet.set s g (v0 :: vs)) g2 =
         if g2 = g then some (mkSet (v0 :: vs)) else mget s g2) ∧
    (∀ (s : MapSetState G V) (g g2 : G),
       mget (MapSet.set s g []) g2 = if g2 = g then none else mget s g2) ∧
    (∀ (s : MapArrayState G V) (g : G) (v0 : V) (vs : List V) (g2 : G),
       mget (MapArray.set s g (v0 :: vs)) g2 =
         if g2 = g then some (v0 :: vs) else mget s g2) ∧
    (∀ (s : MapArrayState G V) (g g2 : G),
       mget (MapArray.set s g []) g2 = if g2 = g then none else mget s g2) := by
  refine ⟨fun s g v0 vs g2 => ?_, fun s g g2 => ?_,
          fun s g v0 vs g2 => ?_, fun s g g2 => ?_⟩
  · unfold MapSet.set
    rw [if_neg (by simp)]
    exact mget_mset s g (mkSet (v0 :: vs)) g2
  · unfold MapSet.set
    rw [if_pos rfl]
    exact mget_mdelete s g g2
  · unfold MapArray.set
    rw [if_neg (by simp)]
    exact mget_mset s g (v0 :: vs) g2
  · unfold MapArray.set
    rw [if_pos rfl]
    exact mget_mdelete s g g2

/-- C6 witness: replacing an existing group's set, evaluated concretely. -/
theorem spec_c6_witness :
    mget (MapSet.set ([(1, [5, 6])] : MapSetState Nat Nat) 1 [7]) 1 =
      some (mkSet [7]) := by
  have h := (spec_c6 (G := Nat) (V := Nat)).1 [(1, [5, 6])] 1 7 [] 1
  simpa using h

/-- C3: In each of the three variants `flush(g)` removes the entire group
and returns its former inner collection exactly; afterwards `has(g)` is
false; other groups are untouched; when `g` is absent it returns an empty
inner collection and the state is unchanged.  The result is exactly the
pair (read of the group, state with the group deleted): an atomic
read-then-delete. -/
theorem spec_c3 {G K V : Type} [DecidableEq G] [DecidableEq K] [DecidableEq V] :
    (∀ (s : MapMapState G K V) (g : G),
       MapMap.flush s g =
         ((mget s g).getD [],
          if MapMap.has s g = true then mdelete s g else s) ∧
       MapMap.has (MapMap.flush s g).2 g = false ∧
       (∀ g2, mget (MapMap.flush s g).2 g2 =
          if g2 = g then none else mget s g2)) ∧
    (∀ (s : MapSetState G V) (g : G),
       MapSet.flush s g =
         ((mget s g).getD [],
          if MapSet.has s g = true then mdelete s g else s) ∧
       MapSet.has (MapSet.flush s g).2 g = false ∧
       (∀ g2, mget (MapSet.flush s g).2 g2 =
          if g2 = g then none else mget s g2)) ∧
    (∀ (s : MapArrayState G V) (g : G),
       MapArray.flush s g =
         ((mget s g).getD [],
          if MapArray.has s g = true then mdelete s g else s) ∧
       MapArray.has (MapArray.flush s g).2 g = false ∧
       (∀ g2, mget (MapArray.flush s g).2 g2 =
          if g2 = g then none else mget s g2)) := by
  refine ⟨fun s g => ?_, fun s g => ?_, fun s g => ?_⟩
  · unfold MapMap.flush MapMap.has
    cases hg : mget s g with
    | none =>
        rw [mhas_eq_isSome, hg]
        refine ⟨by simp, rfl, fun g2 => ?_⟩
        by_cases h2 : g2 = g
        · subst h2; simp [hg]
        · simp [h2]
    | some sub =>
        rw [mhas_eq_isSome, hg]
        refine ⟨by simp, ?_, fun g2 => by rw [mget_mdelete]⟩
        rw [mhas_eq_isSome, mget_mdelete]
        simp
  · unfold MapSet.flush MapSet.has
    cases hg : mget s g with
    | none =>
        rw [mhas_eq_isSome, hg]
        refine ⟨by simp, rfl, fun g2 => ?_⟩
        by_cases h2 : g2 = g
        · subst h2; simp [hg]
        · simp [h2]
    | some sub =>
        rw [mhas_eq_isSome, hg]
        refine ⟨by simp, ?_, fun g2 => by rw [mget_mdelete]⟩
        rw [mhas_eq_isSome, mget_mdelete]
        simp
  · unfold MapArray.flush MapArray.has
    cases hg : mget s g with
    | none =>
        rw [mhas_eq_isSome, hg]
        refine ⟨by simp, rfl, fun g2 => ?_⟩
        by_cases h2 : g2 = g
        · subst h2; simp [hg]
        · simp [h2]
    | some arr =>
        rw [mhas_eq_isSome, hg]
        refine ⟨by simp, ?_, fun g2 => by rw [mget_mdelete]⟩
        rw [mhas_eq_isSome, mget_mdelete]
        simp

/-- C3 witness: flushing a present and an absent group, evaluated
concretely through the theorem. -/
theorem spec_c3_witness :
    MapMap.flush ([(1, [(2, 3)])] : MapMapState Nat Nat Nat) 1 =
      ([(2, 3)], []) := by
  have h := ((spec_c3 (G := Nat) (K := Nat) (V := Nat)).1 [(1, [(2, 3)])] 1).1
  simpa using h

/-- C7: In each of the three variants, `hasAll(g, ...itemKeys)` returns
true iff the group `g` exists and every supplied key/value is present in
its inner collection; with an empty argument list the result is exactly
`has(g)` — vacuously true when `g` is present, false when absent. -/
theorem spec_c7 {G K V : Type} [DecidableEq G] [DecidableEq K] [DecidableEq V] :
    (∀ (s : MapMapState G K V) (g : G) (ks : List K),
       (MapMap.hasAll s g ks = true ↔
         ∃ sub, mget s g = some sub ∧ ∀ k ∈ ks, mhas sub k = true)) ∧
    (∀ (s : MapMapState G K V) (g : G),
       MapMap.hasAll s g [] = MapMap.has s g) ∧
    (∀ (s : MapSetState G V) (g : G) (vs : List V),
       (MapSet.hasAll s g vs = true ↔
         ∃ sub, mget s g = some sub ∧ ∀ v ∈ vs, v ∈ sub)) ∧
    (∀ (s : MapSetState G V) (g : G),
       MapSet.hasAll s g [] = MapSet.has s g) ∧
    (∀ (s : MapArrayState G V) (g : G) (vs : List V),
       (MapArray.hasAll s g vs = true ↔
         ∃ arr, mget s g = some arr ∧ ∀ v ∈ vs, v ∈ arr)) ∧
    (∀ (s : MapArrayState G V) (g : G),
       MapArray.hasAll s g [] = MapArray.has s g) := by
  refine ⟨fun s g ks => ?_, fun s g => ?_, fun s g vs => ?_,
          fun s g => ?_, fun s g vs => ?_, fun s g => ?_⟩
  · unfold MapMap.hasAll
    cases hg : mget s g with
    | none => simp
    | some sub => simp [List.all_eq_true]
  · unfold MapMap.hasAll MapMap.has
    rw [mhas_eq_isSome]
    cases hg : mget s g <;> simp
  · unfold MapSet.hasAll
    cases hg : mget s g with
    | none => simp
    | some sub => simp [List.all_eq_true]
  · unfold MapSet.hasAll MapSet.has
    rw [mhas_eq_isSome]
    cases hg : mget s g <;> simp
  · unfold MapArray.hasAll
    cases hg : mget s g with
    | none => simp
    | some arr => simp [List.all_eq_true]
  · unfold MapArray.hasAll MapArray.has
    rw [mhas_eq_isSome]
    cases hg : mget s g <;> simp
/-- C7 witness: `hasAll` on a present group with all keys present, via the
theorem at a concrete state. -/
theorem spec_c7_witness :
    MapMap.hasAll ([(1, [(2, 3), (4, 5)])] : MapMapState Nat Nat Nat) 1 [2, 4] = true := by
  refine ((spec_c7 (G := Nat) (K := Nat) (V := Nat)).1
      [(1, [(2, 3), (4, 5)])] 1 [2, 4]).mpr ?_
  refine ⟨[(2, 3), (4, 5)], by decide, ?_⟩
  intro k hk
  fin_cases hk <;> decide

/-- C4 counterexample: the claim says `hasSub` returns `false` (a boolean,
not any other value) when the group is absent.  On a fresh keyed instance
and on a fresh set instance, `hasSub` evaluates to `undefined` (modelled as
`none`), which is not the value `false` (`some false`). -/
theorem spec_c4_counterexample :
    MapMap.hasSub ([] : MapMapState Nat Nat Nat) 0 0 = none ∧
    MapSet.hasSub ([] : MapSetState Nat Nat) 0 0 = none ∧
    (decide (MapMap.hasSub ([] : MapMapState Nat Nat Nat) 0 0 = some false)) = false ∧
    (decide (MapSet.hasSub ([] : MapSetState Nat Nat) 0 0 = some false)) = false := by
  refine ⟨rfl, rfl, by decide, by decide⟩

/-- C4 (amended): `hasSub(g, k)` returns the boolean `true` exactly when
the pair `(g, k)` is present (inner key for the keyed variant, the value
itself for set/list variants); when the group `g` is absent the keyed and
set variants return `undefined` (a falsy non-boolean, modelled `none`)
rather than `false`, while the list variant returns the boolean `false`.
No variant throws.  The absent-group behaviour is stated on `mdelete s g`,
a state in which `g` is certainly absent. -/
theorem spec_c4 {G K V : Type} [DecidableEq G] [DecidableEq K] [DecidableEq V] :
    (∀ (s : MapMapState G K V) (g : G) (k : K),
       (MapMap.hasSub s g k = some true ↔
          ∃ sub, mget s g = some sub ∧ mhas sub k = true)) ∧
    (∀ (s : MapMapState G K V) (g : G) (k : K),
       MapMap.hasSub (mdelete s g) g k = none) ∧
    (∀ (s : MapSetState G V) (g : G) (v : V),
       (MapSet.hasSub s g v = some true ↔
          ∃ sub, mget s g = some sub ∧ v ∈ sub)) ∧
    (∀ (s : MapSetState G V) (g : G) (v : V),
       MapSet.hasSub (mdelete s g) g v = none) ∧
    (∀ (s : MapArrayState G V) (g : G) (v : V),
       (MapArray.hasSub s g v = true ↔
          ∃ arr, mget s g = some arr ∧ v ∈ arr)) ∧
    (∀ (s : MapArrayState G V) (g : G) (v : V),
       MapArray.hasSub (mdelete s g) g v = false) := by
  refine ⟨fun s g k => ?_, fun s g k => ?_, fun s g v => ?_,
          fun s g v => ?_, fun s g v => ?_, fun s g v => ?_⟩
  · unfold MapMap.hasSub
    cases hg : mget s g with
    | none => simp
    | some sub => simp
  · unfold MapMap.hasSub
    rw [mget_mdelete]
    simp
  · unfold MapSet.hasSub
    cases hg : mget s g with
    | none => simp
    | some sub => simp
  · unfold MapSet.hasSub
    rw [mget_mdelete]
    simp
  · unfold MapArray.hasSub
    cases hg : mget s g with
    | none => simp
    | some arr => simp
  · unfold MapArray.hasSub
    rw [mget_mdelete]
    simp

/-- C4 witness: `hasSub` evaluated through the amended theorem on a
present pair. -/
theorem spec_c4_witness :
    MapMap.hasSub ([(1, [(2, 3)])] : MapMapState Nat Nat Nat) 1 2 = some true := by
  refine ((spec_c4 (G := Nat) (K := Nat) (V := Nat)).1
      [(1, [(2, 3)])] 1 2).mpr ?_
  exact ⟨[(2, 3)], by decide, by decide⟩

/-- How `delete` rebuilds the outer store from the surviving inner
collection: the group is dropped exactly when the survivor is empty. -/
theorem delete_state_helper {G I : Type} [DecidableEq G] [DecidableEq I]
    (s : List (G × List I)) (g g2 : G) (sub2 : List I) :
    mget (if sub2.length = 0 then mdelete s g else mset s g sub2) g2 =
      if g2 = g then (if sub2 = [] then none else some sub2) else mget s g2 := by
  by_cases hemp : sub2 = []
  · have hlen : sub2.length = 0 := by rw [hemp]; rfl
    rw [if_pos hlen, if_pos hemp, mget_mdelete]
  · have hlen : ¬ sub2.length = 0 := by
      simpa [List.length_eq_zero] using hemp
    rw [if_neg hlen, if_neg hemp, mget_mset]

/-- C2: In each of the three variants, `delete(g, ...itemKeys)` with a
non-empty key list removes each named key/value from `g` and returns
exactly the items actually removed: for the keyed variant the returned
map sends `k` to the prior value exactly when `k` was requested (and is
empty beyond the requested keys, hence empty on an absent group); for the
set variant the returned set holds exactly the requested values that were
present; for the list variant the returned sequence repeats each requested
value once per occurrence it had (all occurrences are removed).  The
group's entry afterwards holds the inner collection filtered of the
requested keys/values, and is gone exactly when that filter is empty;
every other group is untouched. -/
theorem spec_c2 {G K V : Type} [DecidableEq G] [DecidableEq K] [DecidableEq V] :
    (∀ (s : MapMapState G K V) (g : G) (k0 : K) (ks : List K),
       (∀ k, mget (MapMap.delete s g (k0 :: ks)).1 k =
          if k ∈ k0 :: ks then (mget s g).bind (fun sub => mget sub k) else none) ∧
       (∀ g2, mget (MapMap.delete s g (k0 :: ks)).2 g2 =
          if g2 = g then
            (mget s g).bind (fun sub =>
              let sub2 := sub.filter (fun p => !decide (p.1 ∈ k0 :: ks))
              if sub2 = [] then none else some sub2)
          else mget s g2)) ∧
    (∀ (s : MapSetState G V) (g : G) (v0 : V) (vs : List V),
       (∀ v, v ∈ (MapSet.delete s g (v0 :: vs)).1 ↔
          v ∈ v0 :: vs ∧ v ∈ (mget s g).getD []) ∧
       (∀ g2, mget (MapSet.delete s g (v0 :: vs)).2 g2 =
          if g2 = g then
            (mget s g).bind (fun sub =>
              let sub2 := sub.filter (fun x => !decide (x ∈ v0 :: vs))
              if sub2 = [] then none else some sub2)
          else mget s g2)) ∧
    (∀ (s : MapArrayState G V) (g : G) (v0 : V) (vs : List V),
       (∀ v, ((MapArray.delete s g (v0 :: vs)).1).count v =
          if v ∈ v0 :: vs then ((mget s g).getD []).count v else 0) ∧
       (∀ g2, mget (MapArray.delete s g (v0 :: vs)).2 g2 =
          if g2 = g then
            (mget s g).bind (fun arr =>
              let arr2 := arr.filter (fun x => !decide (x ∈ v0 :: vs))
              if arr2 = [] then none else some arr2)
          else mget s g2)) := by
  refine ⟨fun s g k0 ks => ?_, fun s g v0 vs => ?_, fun s g v0 vs => ?_⟩
  · unfold MapMap.delete
    rw [if_neg (by simp : ¬ (k0 :: ks) = [])]
    cases hg : mget s g with
    | none =>
        refine ⟨fun k => ?_, fun g2 => ?_⟩
        · by_cases hk : k ∈ k0 :: ks <;> simp [hk]
        · by_cases h2 : g2 = g
          · subst h2; simp [hg]
          · simp [h2]
    | some sub =>
        refine ⟨fun k => ?_, fun g2 => ?_⟩
        · simp only []
          rw [mapMap_deleteLoop_out]
          by_cases hk : k ∈ k0 :: ks
          · by_cases hs : (mget sub k).isSome
            · simp [hk, hs]
            · cases hmk : mget sub k with
              | none => simp [hk, hmk]
              | some v => rw [hmk] at hs; simp at hs
          · simp [hk]
        · simp only []
          rw [mapMap_deleteLoop_sub, delete_state_helper]
          rfl
  · unfold MapSet.delete
    rw [if_neg (by simp : ¬ (v0 :: vs) = [])]
    cases hg : mget s g with
    | none =>
        refine ⟨fun v => ?_, fun g2 => ?_⟩
        · simp
        · by_cases h2 : g2 = g
          · subst h2; simp [hg]
          · simp [h2]
    | some sub =>
        refine ⟨fun v => ?_, fun g2 => ?_⟩
        · simp only []
          rw [mapSet_deleteLoop_removed]
          simp
        · simp only []
          rw [mapSet_deleteLoop_sub, delete_state_helper]
          rfl
  · unfold MapArray.delete
    rw [if_neg (by simp : ¬ (v0 :: vs) = [])]
    cases hg : mget s g with
    | none =>
        refine ⟨fun v => ?_, fun g2 => ?_⟩
        · simp
        · by_cases h2 : g2 = g
          · subst h2; simp [hg]
          · simp [h2]
    | some arr =>
        refine ⟨fun v => ?_, fun g2 => ?_⟩
        · simp only []
          rw [mapArray_deleteLoop_removed]
          simp
        · simp only []
          rw [mapArray_deleteLoop_arr, delete_state_helper]
          rfl

/-- C2 witness: deleting one of two keys through the theorem on a concrete
keyed state: the removed map holds the prior value and the group keeps the
other key. -/
theorem spec_c2_witness :
    mget (MapMap.delete ([(1, [(2, 20), (4, 40)])] : MapMapState Nat Nat Nat)
        1 [2]).1 2 = some 20 ∧
    mget (MapMap.delete ([(1, [(2, 20), (4, 40)])] : MapMapState Nat Nat Nat)
        1 [2]).2 1 = some [(4, 40)] := by
  have h := (spec_c2 (G := Nat) (K := Nat) (V := Nat)).1
      [(1, [(2, 20), (4, 40)])] 1 2 []
  constructor
  · have h1 := h.1 2
    simpa using h1
  · have h2 := h.2 1
    simpa using h2

/-- C1: Group existence invariant.  For every state reachable by a finite
sequence of the listed operations from a fresh instance, in each of the
three variants, `has(g)` is true exactly when the group's inner collection
exists and is non-empty (no group is ever stored empty).  The states
immediately after a `delete` or `flush` are themselves reachable (last two
conjuncts per variant), so in particular a delete/flush that empties `g`
leaves `has(g)` false. -/
theorem spec_c1 {G K V : Type} [DecidableEq G] [DecidableEq K] [DecidableEq V] :
    (∀ (ops : List (MapMap.Op G K V)) (g : G),
       MapMap.has (MapMap.run ops) g = true ↔
         ∃ sub, mget (MapMap.run ops) g = some sub ∧ 0 < sub.length) ∧
    (∀ (ops : List (MapMap.Op G K V)) (g : G) (ks : List K),
       (MapMap.delete (MapMap.run ops) g ks).2 =
         MapMap.run (ops ++ [MapMap.Op.delete g ks])) ∧
    (∀ (ops : List (MapMap.Op G K V)) (g : G),
       (MapMap.flush (MapMap.run ops) g).2 =
         MapMap.run (ops ++ [MapMap.Op.flush g])) ∧
    (∀ (ops : List (MapSet.Op G V)) (g : G),
       MapSet.has (MapSet.run ops) g = true ↔
         ∃ sub, mget (MapSet.run ops) g = some sub ∧ 0 < sub.length) ∧
    (∀ (ops : List (MapSet.Op G V)) (g : G) (vs : List V),
       (MapSet.delete (MapSet.run ops) g vs).2 =
         MapSet.run (ops ++ [MapSet.Op.delete g vs])) ∧
    (∀ (ops : List (MapSet.Op G V)) (g : G),
       (MapSet.flush (MapSet.run ops) g).2 =
         MapSet.run (ops ++ [MapSet.Op.flush g])) ∧
    (∀ (ops : List (MapArray.Op G V)) (g : G),
       MapArray.has (MapArray.run ops) g = true ↔
         ∃ arr, mget (MapArray.run ops) g = some arr ∧ 0 < arr.length) ∧
    (∀ (ops : List (MapArray.Op G V)) (g : G) (vs : List V),
       (MapArray.delete (MapArray.run ops) g vs).2 =
         MapArray.run (ops ++ [MapArray.Op.delete g vs])) ∧
    (∀ (ops : List (MapArray.Op G V)) (g : G),
       (MapArray.flush (MapArray.run ops) g).2 =
         MapArray.run (ops ++ [MapArray.Op.flush g])) := by
  refine ⟨fun ops g => ?_, fun ops g ks => ?_, fun ops g => ?_,
          fun ops g => ?_, fun ops g vs => ?_, fun ops g => ?_,
          fun ops g => ?_, fun ops g vs => ?_, fun ops g => ?_⟩
  · have hinv := mapMap_run_inv_aux (G := G) (K := K) (V := V) ops [] innersNonempty_nil
    unfold MapMap.has
    rw [mhas_eq_isSome]
    cases hm : mget (MapMap.run ops) g with
    | none => simp
    | some sub =>
        constructor
        · intro _
          exact ⟨sub, rfl, hinv (g, sub) (mget_some_mem _ _ _ hm)⟩
        · intro _
          rfl
  · simp [MapMap.run, List.foldl_append, MapMap.step]
  · simp [MapMap.run, List.foldl_append, MapMap.step]
  · have hinv := mapSet_run_inv_aux (G := G) (V := V) ops [] innersNonempty_nil
    unfold MapSet.has
    rw [mhas_eq_isSome]
    cases hm : mget (MapSet.run ops) g with
    | none => simp
    | some sub =>
        constructor
        · intro _
          exact ⟨sub, rfl, hinv (g, sub) (mget_some_mem _ _ _ hm)⟩
        · intro _
          rfl
  · simp [MapSet.run, List.foldl_append, MapSet.step]
  · simp [MapSet.run, List.foldl_append, MapSet.step]
  · have hinv := mapArray_run_inv_aux (G := G) (V := V) ops [] innersNonempty_nil
    unfold MapArray.has
    rw [mhas_eq_isSome]
    cases hm : mget (MapArray.run ops) g with
    | none => simp
    | some arr =>
        constructor
        · intro _
          exact ⟨arr, rfl, hinv (g, arr) (mget_some_mem _ _ _ hm)⟩
        · intro _
          rfl
  · simp [MapArray.run, List.foldl_append, MapArray.step]
  · simp [MapArray.run, List.foldl_append, MapArray.step]

/-- C1 witness: the invariant evaluated on a short concrete run. -/
theorem spec_c1_witness :
    MapMap.has (MapMap.run
      ([MapMap.Op.set 1 2 3] : List (MapMap.Op Nat Nat Nat))) 1 = true :=
  ((spec_c1 (G := Nat) (K := Nat) (V := Nat)).1 [MapMap.Op.set 1 2 3] 1).mpr
    ⟨[(2, 3)], by decide, by decide⟩

/-- C5 counterexample: the claim says iterating the whole keyed structure
yields every `(groupId, key, value)` triple.  On the reachable `MapMap`
state holding one group with two keys, the class's actual (inherited
native `Map`) iteration yields exactly one element, while the traversal
described by the spec yields two — so the iteration cannot produce one
item per triple. -/
theorem spec_c5_counterexample :
    (MapMap.iter (MapMap.run
      ([MapMap.Op.set 1 1 10, MapMap.Op.set 1 2 20] :
        List (MapMap.Op Nat Nat Nat)))).length = 1 ∧
    (MapMap.traversalSpec (MapMap.run
      ([MapMap.Op.set 1 1 10, MapMap.Op.set 1 2 20] :
        List (MapMap.Op Nat Nat Nat)))).length = 2 := by
  refine ⟨by decide, by decide⟩

/-- C5 (amended): only the first `MapSet` implementation defines a
`[Symbol.iterator]`, and it produces every `(groupId, value)` pair in
outer-then-inner nesting order (for each group in outer iteration order,
for each value in that group's set order); the keyed and list variants
declare no iterator and inherit the native `Map` iteration, which yields
one `(groupId, innerCollection)` entry per group rather than flattened
triples/pairs. -/
theorem spec_c5 {G K V : Type} :
    (∀ s : MapSetState G V, MapSetA.iter s = MapSetA.traversalSpec s) ∧
    (∀ s : MapMapState G K V, MapMap.iter s = s) ∧
    (∀ s : MapArrayState G V, MapArray.iter s = s) :=
  ⟨fun _ => rfl, fun _ => rfl, fun _ => rfl⟩

/-- C5 witness: the set-variant traversal evaluated on a concrete state. -/
theorem spec_c5_witness :
    MapSetA.iter ([(1, [7, 8]), (2, [9])] : MapSetState Nat Nat) =
      MapSetA.traversalSpec [(1, [7, 8]), (2, [9])] :=
  (spec_c5 (G := Nat) (K := Nat) (V := Nat)).1 [(1, [7, 8]), (2, [9])]

/-- C8 counterexample: the claim says `keysOf` is defined for the set and
list variants.  `MapArray`'s class body declares no `keysOf`, nor does the
second `MapSet` class body, nor does the native `Map` superclass they
inherit from — calling `keysOf` on a `MapArray` is a `TypeError`, not an
alias of `valuesOf`. -/
theorem spec_c8_counterexample :
    (MapArray.ownMethods.contains "keysOf") = false ∧
    (MapSet.ownMethods.contains "keysOf") = false ∧
    (mapNativeMethods.contains "keysOf") = false := by
  refine ⟨rfl, rfl, rfl⟩

/-- C8 (amended): `keysOf` is declared only in the first `MapSet`
implementation, where it is an exact alias of `valuesOf` (same result on
every state and group); the second `MapSet` implementation and `MapArray`
do not define `keysOf` at all. -/
theorem spec_c8 {G V : Type} [DecidableEq G] [DecidableEq V] :
    (∀ (s : MapSetState G V) (g : G), MapSetA.keysOf s g = MapSetA.valuesOf s g) ∧
    (MapSetA.ownMethods.contains "keysOf") = true ∧
    (MapSet.ownMethods.contains "keysOf") = false ∧
    (MapArray.ownMethods.contains "keysOf") = false :=
  ⟨fun _ _ => rfl, rfl, rfl, rfl⟩

/-- C8 witness: the alias evaluated on a concrete state. -/
theorem spec_c8_witness :
    MapSetA.keysOf ([(1, [7])] : MapSetState Nat Nat) 1 =
      MapSetA.valuesOf [(1, [7])] 1 :=
  (spec_c8 (G := Nat) (V := Nat)).1 [(1, [7])] 1

end GroupMap
